import Mathlib

/-!
Verification of the `dm-text-fuzz` text fuzzer (`src/main.py`).

The program reads a text file, mutates it character by character
(substitution / insertion / deletion driven by one uniform random draw per
character, with an optional punctuation exemption) and writes the result.
We embed the character sets of Python's `string` module, the `fuzz_text`
loop with an explicit randomness oracle, and `validate_args` together with
an event-trace model of `main`.
-/

namespace DmTextFuzz

/-- Python `string.ascii_lowercase`: the 26 lower-case ASCII letters. -/
def ascii_lowercase : List Char :=
  (List.range 26).map (fun n => Char.ofNat (97 + n))

/-- Python `string.ascii_uppercase`: the 26 upper-case ASCII letters. -/
def ascii_uppercase : List Char :=
  (List.range 26).map (fun n => Char.ofNat (65 + n))

/-- Python `string.digits`: the 10 decimal digit characters. -/
def digits : List Char :=
  (List.range 10).map (fun n => Char.ofNat (48 + n))

/-- Python `string.ascii_letters + string.digits`, the population that
`random.choice` samples from on lines 63 and 65 of `src/main.py`
(`ascii_letters` is lowercase followed by uppercase). -/
def alphanum : List Char := ascii_lowercase ++ ascii_uppercase ++ digits

/-- Python `string.punctuation`: the 32 ASCII punctuation characters,
i.e. the printable ASCII characters that are neither alphanumeric nor the
space — code points 33–47, 58–64, 91–96 and 123–126. -/
def punctuation : List Char :=
  ((List.range 128).filter (fun n =>
    decide ((33 ≤ n ∧ n ≤ 47) ∨ (58 ≤ n ∧ n ≤ 64) ∨
      (91 ≤ n ∧ n ≤ 96) ∨ (123 ≤ n ∧ n ≤ 126)))).map Char.ofNat

/-- The randomness consumed while processing one non-exempt character:
`r` is the value of `random.random()` (a real in `[0,1)`, modelled as a
rational), and `ix` selects the element `random.choice` would return if it
is called for this character. -/
structure Rand where
  r  : ℚ
  ix : Nat

/-- Python `random.choice(l)`: returns the element of `l` selected by the random
index `n` (reduced modulo the length). `alphanum` is never empty, so the
fallback default is irrelevant for this program. -/
def choice (l : List Char) (n : Nat) : Char := l.getD (n % l.length) 'a'

/-- Lines 61–69 of `src/main.py`: the randomized branch for one character
that is not punctuation-exempt.  One draw `ρ.r`, three cumulative
thresholds in an `if`/`elif` chain; the list returned is this character's
contribution to the output. -/
def fuzzChar (sub ins del : ℚ) (c : Char) (ρ : Rand) : List Char :=
  if ρ.r < sub then [choice alphanum ρ.ix]
  else if ρ.r < sub + ins then [choice alphanum ρ.ix, c]
  else if ρ.r < sub + ins + del then []
  else [c]

/-- The loop `for char in text` of `fuzz_text` (lines 55–70).  `g` is the
stream of randomness; `k` counts how many randomized characters have been
processed so far, so punctuation-exempt characters consume no randomness,
exactly as the `continue` on line 59 skips the `random.random()` call. -/
def fuzzAux (sub ins del : ℚ) (preserve : Bool) (g : Nat → Rand) :
    List Char → Nat → List Char
  | [], _ => []
  | c :: cs, k =>
    if preserve ∧ c ∈ punctuation then
      c :: fuzzAux sub ins del preserve g cs k
    else
      fuzzChar sub ins del c (g k) ++ fuzzAux sub ins del preserve g cs (k + 1)

/-- The function `fuzz_text(text, sub_freq, ins_freq, del_freq,
preserve_punctuation)` from `src/main.py`, with the randomness made
explicit. -/
def fuzz_text (text : List Char) (sub ins del : ℚ) (preserve : Bool)
    (g : Nat → Rand) : List Char :=
  fuzzAux sub ins del preserve g text 0

/-- The draws the Python runtime can actually produce:
`random.random()` always lies in `[0, 1)`. -/
def RandOk (g : Nat → Rand) : Prop := ∀ k, 0 ≤ (g k).r ∧ (g k).r < 1

/-- The errors `validate_args` (lines 73–93) can raise, in source order. -/
inductive ValidationError where
  | subFreqRange
  | insFreqRange
  | delFreqRange
  | freqSum
  | inputNotFile
  | outputDir
  deriving DecidableEq, Repr

/-- The function `validate_args` (lines 73–93): the checks in source order; the file
system is abstracted by the two booleans `inputIsFile` (does
`args.input_file.is_file()` hold) and `outputIsDir`
(`args.output_file.is_dir()`).  Returns the first error raised, if any. -/
def validate_args (sub ins del : ℚ) (inputIsFile outputIsDir : Bool) :
    Option ValidationError :=
  if ¬ (0 ≤ sub ∧ sub ≤ 1) then some ValidationError.subFreqRange
  else if ¬ (0 ≤ ins ∧ ins ≤ 1) then some ValidationError.insFreqRange
  else if ¬ (0 ≤ del ∧ del ≤ 1) then some ValidationError.delFreqRange
  else if sub + ins + del > 1 then some ValidationError.freqSum
  else if ¬ inputIsFile then some ValidationError.inputNotFile
  else if outputIsDir then some ValidationError.outputDir
  else none

/-- Does a validation outcome represent a configuration (frequency)
error — one of the `ValueError`s of lines 75–87 — as opposed to a file
error or success? -/
def isConfigError : Option ValidationError → Bool
  | some ValidationError.subFreqRange => true
  | some ValidationError.insFreqRange => true
  | some ValidationError.delFreqRange => true
  | some ValidationError.freqSum => true
  | _ => false

/-- External state mutations `main` can perform, in order: opening the
input file for reading (line 105) and opening/writing the output file
(lines 115–116). -/
inductive Event where
  | openRead
  | openWrite
  deriving DecidableEq, Repr

/-- The function `main` (lines 96–130), abstracted to its exit code and the trace of
file operations: `validate_args` runs first; any exception it raises is
caught and the process exits with status 1 before any file is opened;
otherwise the input is read, fuzzed and written, and the exit code is 0.
(I/O itself is assumed to succeed; the claims only concern the validation
path.) -/
def main_run (sub ins del : ℚ) (preserve : Bool)
    (inputIsFile outputIsDir : Bool) (text : List Char) (g : Nat → Rand) :
    Nat × List Event :=
  match validate_args sub ins del inputIsFile outputIsDir with
  | some _ => (1, [])
  | none =>
    let _ := fuzz_text text sub ins del preserve g
    (0, [Event.openRead, Event.openWrite])

/-- Modelled from the spec: the alternative that the design notes rule
out — "three independent probability checks", i.e. an `if`/`elif` chain
where each branch tests its own frequency against its own draw instead of
cumulative thresholds against a single draw.  Used only to contrast with
`fuzzChar`. -/
def fuzzCharIndep (sub ins del : ℚ) (c : Char) (r1 r2 r3 : ℚ) (ix : Nat) :
    List Char :=
  if r1 < sub then [choice alphanum ix]
  else if r2 < ins then [choice alphanum ix, c]
  else if r3 < del then []
  else [c]

/-! ## Helper lemmas -/

theorem choice_mem (l : List Char) (n : Nat) (h : l ≠ []) : choice l n ∈ l := by
  unfold choice
  have hl : 0 < l.length := List.length_pos.mpr h
  have hn : n % l.length < l.length := Nat.mod_lt _ hl
  rw [List.getD_eq_getElem l _ hn]
  exact List.getElem_mem hn

theorem choice_alphanum_mem (n : Nat) : choice alphanum n ∈ alphanum :=
  choice_mem alphanum n (by decide)

theorem alphanum_not_punct : ∀ c ∈ alphanum, c ∉ punctuation := by decide

/-- Every per-character contribution is one of the four branch results of
lines 62–69. -/
theorem fuzzChar_cases (sub ins del : ℚ) (c : Char) (ρ : Rand) :
    fuzzChar sub ins del c ρ = [choice alphanum ρ.ix] ∨
    fuzzChar sub ins del c ρ = [choice alphanum ρ.ix, c] ∨
    fuzzChar sub ins del c ρ = [] ∨
    fuzzChar sub ins del c ρ = [c] := by
  unfold fuzzChar
  split_ifs
  · exact Or.inl rfl
  · exact Or.inr (Or.inl rfl)
  · exact Or.inr (Or.inr (Or.inl rfl))
  · exact Or.inr (Or.inr (Or.inr rfl))

/-! ## Claim theorems -/

/-- C1: for every non-punctuation-exempt character the decision is an
ordered conditional on a single draw `r`: the draw interval `[0,sub)`
substitutes, `[sub, sub+ins)` inserts, `[sub+ins, sub+ins+del)` deletes,
and `[sub+ins+del, ·)` passes the character through unchanged — cumulative
thresholds on one draw.  Moreover the behavior differs from the
"three independent probability checks" alternative at a concrete input. -/
theorem fuzzChar_cumulative_single_draw (sub ins del : ℚ) (c : Char)
    (ρ : Rand) (hins : 0 ≤ ins) (hdel : 0 ≤ del) :
    ((ρ.r < sub → fuzzChar sub ins del c ρ = [choice alphanum ρ.ix]) ∧
     (sub ≤ ρ.r → ρ.r < sub + ins →
       fuzzChar sub ins del c ρ = [choice alphanum ρ.ix, c]) ∧
     (sub + ins ≤ ρ.r → ρ.r < sub + ins + del →
       fuzzChar sub ins del c ρ = []) ∧
     (sub + ins + del ≤ ρ.r → fuzzChar sub ins del c ρ = [c])) ∧
    fuzzChar (1/2) (1/2) 0 'a' ⟨7/10, 0⟩ ≠
      fuzzCharIndep (1/2) (1/2) 0 'a' (7/10) (7/10) (7/10) 0 := by
  constructor
  · refine ⟨?_, ?_, ?_, ?_⟩
    · intro h
      unfold fuzzChar
      rw [if_pos h]
    · intro h1 h2
      unfold fuzzChar
      rw [if_neg (not_lt.mpr h1), if_pos h2]
    · intro h1 h2
      have ha : ¬ (ρ.r < sub) := not_lt.mpr (by linarith)
      unfold fuzzChar
      rw [if_neg ha, if_neg (not_lt.mpr h1), if_pos h2]
    · intro h1
      have ha : ¬ (ρ.r < sub) := not_lt.mpr (by linarith)
      have hb : ¬ (ρ.r < sub + ins) := not_lt.mpr (by linarith)
      unfold fuzzChar
      rw [if_neg ha, if_neg hb, if_neg (not_lt.mpr h1)]
  · have h1 : fuzzChar (1/2) (1/2) 0 'a' ⟨7/10, 0⟩ =
        [choice alphanum 0, 'a'] := by
      unfold fuzzChar
      norm_num
    have h2 : fuzzCharIndep (1/2) (1/2) 0 'a' (7/10) (7/10) (7/10) 0 =
        ['a'] := by
      unfold fuzzCharIndep
      norm_num
    rw [h1, h2]
    simp

/-- Witness for C1 at sub = 0, ins = 0, del = 0 and the draw 0: the draw
falls past all three thresholds, so the character passes through. -/
theorem fuzzChar_cumulative_single_draw_witness :
    fuzzChar 0 0 0 'z' ⟨0, 0⟩ = ['z'] :=
  ((fuzzChar_cumulative_single_draw 0 0 0 'z' ⟨0, 0⟩ (le_refl 0)
    (le_refl 0)).1.2.2.2 (by norm_num))

/-- C2: with all three frequencies zero, `fuzz_text` is the identity on
every input, for every preserve-punctuation setting and every sequence of
draws the runtime can produce. -/
theorem fuzz_text_zero_freqs_identity (text : List Char) (preserve : Bool)
    (g : Nat → Rand) (hg : ∀ k, 0 ≤ (g k).r) :
    fuzz_text text 0 0 0 preserve g = text := by
  have aux : ∀ (cs : List Char) (k : Nat),
      fuzzAux 0 0 0 preserve g cs k = cs := by
    intro cs
    induction cs with
    | nil => intro k; rfl
    | cons c cs ih =>
      intro k
      by_cases hp : (preserve : Prop) ∧ c ∈ punctuation
      · obtain ⟨hp1, hp2⟩ := hp
        subst hp1
        simp [fuzzAux, hp2, ih]
      · have h0 : ¬ ((g k).r < 0) := not_lt.mpr (hg k)
        simp [fuzzAux, hp, fuzzChar, h0, ih]
  exact aux text 0

/-- Witness for C2 on the input "a.b,c" with punctuation preserved. -/
theorem fuzz_text_zero_freqs_identity_witness :
    fuzz_text ['a', '.', 'b', ',', 'c'] 0 0 0 true (fun _ => ⟨0, 0⟩) =
      ['a', '.', 'b', ',', 'c'] :=
  fuzz_text_zero_freqs_identity ['a', '.', 'b', ',', 'c'] true
    (fun _ => ⟨0, 0⟩) (fun _ => le_refl 0)

/-- C6: whenever the draw selects substitution, the contribution is a
single character taken from the alphanumeric population. -/
theorem fuzzChar_substitution_alphanum (sub ins del : ℚ) (c : Char)
    (ρ : Rand) (h : ρ.r < sub) :
    fuzzChar sub ins del c ρ = [choice alphanum ρ.ix] ∧
    choice alphanum ρ.ix ∈ alphanum := by
  constructor
  · unfold fuzzChar
    rw [if_pos h]
  · exact choice_alphanum_mem ρ.ix

/-- Witness for C6: substitution fires at sub = 1 and draw 0. -/
theorem fuzzChar_substitution_alphanum_witness :
    fuzzChar 1 0 0 '.' ⟨0, 3⟩ = [choice alphanum 3] ∧
    choice alphanum 3 ∈ alphanum :=
  fuzzChar_substitution_alphanum 1 0 0 '.' ⟨0, 3⟩ (by norm_num)

/-- C7: whenever the draw selects insertion, the contribution is exactly
one alphanumeric character followed by the retained original — a net
length increase of one for that character. -/
theorem fuzzChar_insertion_shape (sub ins del : ℚ) (c : Char) (ρ : Rand)
    (h1 : sub ≤ ρ.r) (h2 : ρ.r < sub + ins) :
    fuzzChar sub ins del c ρ = [choice alphanum ρ.ix, c] ∧
    choice alphanum ρ.ix ∈ alphanum ∧
    (fuzzChar sub ins del c ρ).length = 2 := by
  have he : fuzzChar sub ins del c ρ = [choice alphanum ρ.ix, c] := by
    unfold fuzzChar
    rw [if_neg (not_lt.mpr h1), if_pos h2]
  exact ⟨he, choice_alphanum_mem ρ.ix, by rw [he]; rfl⟩

/-- Witness for C7: insertion fires at sub = 0, ins = 1 and draw 0. -/
theorem fuzzChar_insertion_shape_witness :
    fuzzChar 0 1 0 'q' ⟨0, 0⟩ = [choice alphanum 0, 'q'] ∧
    choice alphanum 0 ∈ alphanum ∧
    (fuzzChar 0 1 0 'q' ⟨0, 0⟩).length = 2 :=
  fuzzChar_insertion_shape 0 1 0 'q' ⟨0, 0⟩ (le_refl 0) (by norm_num)

/-- C8: the empty input yields the empty output for every configuration
and every oracle. -/
theorem fuzz_text_empty (sub ins del : ℚ) (preserve : Bool)
    (g : Nat → Rand) : fuzz_text [] sub ins del preserve g = [] := rfl

/-- C3: with preserve-punctuation enabled, a punctuation character is
emitted unchanged, consumes no randomness, and has nothing inserted
before it or deleted from it (its contribution is exactly itself); and
globally the punctuation subsequence of the output equals the punctuation
subsequence of the input. -/
theorem fuzz_text_preserves_punctuation (sub ins del : ℚ) (g : Nat → Rand)
    (c : Char) (cs : List Char) (k : Nat) (text : List Char)
    (hc : c ∈ punctuation) :
    fuzzAux sub ins del true g (c :: cs) k =
      c :: fuzzAux sub ins del true g cs k ∧
    (fuzz_text text sub ins del true g).filter
        (fun x => decide (x ∈ punctuation)) =
      text.filter (fun x => decide (x ∈ punctuation)) := by
  constructor
  · simp [fuzzAux, hc]
  · have contrib : ∀ (d : Char) (ρ : Rand), d ∉ punctuation →
        (fuzzChar sub ins del d ρ).filter
          (fun x => decide (x ∈ punctuation)) = [] := by
      intro d ρ hd
      rcases fuzzChar_cases sub ins del d ρ with h | h | h | h <;> rw [h]
      · simp [alphanum_not_punct _ (choice_alphanum_mem ρ.ix)]
      · simp [alphanum_not_punct _ (choice_alphanum_mem ρ.ix), hd]
      · rfl
      · simp [hd]
    have aux : ∀ (ds : List Char) (j : Nat),
        (fuzzAux sub ins del true g ds j).filter
            (fun x => decide (x ∈ punctuation)) =
          ds.filter (fun x => decide (x ∈ punctuation)) := by
      intro ds
      induction ds with
      | nil => intro j; rfl
      | cons d ds ih =>
        intro j
        by_cases hd : d ∈ punctuation
        · simp [fuzzAux, hd, ih]
        · simp [fuzzAux, hd, List.filter_append, contrib d (g j) hd, ih]
    exact aux text 0

/-- Witness for C3 at the punctuation character dot. -/
theorem fuzz_text_preserves_punctuation_witness :
    fuzzAux 0 0 0 true (fun _ => ⟨0, 0⟩) ['.'] 0 =
      '.' :: fuzzAux 0 0 0 true (fun _ => ⟨0, 0⟩) [] 0 ∧
    (fuzz_text ['.'] 0 0 0 true (fun _ => ⟨0, 0⟩)).filter
        (fun x => decide (x ∈ punctuation)) =
      (['.'] : List Char).filter (fun x => decide (x ∈ punctuation)) :=
  fuzz_text_preserves_punctuation 0 0 0 (fun _ => ⟨0, 0⟩) '.' [] 0 ['.']
    (by decide)

/-- C4: validation reports a configuration error exactly when a frequency
is outside `[0,1]` or the sum exceeds 1; the two concrete frequency
triples from the spec fail; and whenever validation fails, the program
exits with status 1 without opening or writing any file. -/
theorem validate_args_config_spec :
    ∀ (sub ins del : ℚ) (inF outD : Bool),
      (isConfigError (validate_args sub ins del inF outD) = true ↔
        (¬ (0 ≤ sub ∧ sub ≤ 1) ∨ ¬ (0 ≤ ins ∧ ins ≤ 1) ∨
         ¬ (0 ≤ del ∧ del ≤ 1) ∨ 1 < sub + ins + del)) ∧
      isConfigError (validate_args 1.2 0 0 inF outD) = true ∧
      isConfigError (validate_args 0.5 0.3 0.3 inF outD) = true ∧
      (∀ (preserve : Bool) (text : List Char) (g : Nat → Rand)
          (e : ValidationError),
        validate_args sub ins del inF outD = some e →
        main_run sub ins del preserve inF outD text g = (1, [])) := by
  intro sub ins del inF outD
  refine ⟨?_, ?_, ?_, ?_⟩
  · unfold validate_args
    by_cases hc1 : 0 ≤ sub ∧ sub ≤ 1
    · rw [if_neg (not_not_intro hc1)]
      by_cases hc2 : 0 ≤ ins ∧ ins ≤ 1
      · rw [if_neg (not_not_intro hc2)]
        by_cases hc3 : 0 ≤ del ∧ del ≤ 1
        · rw [if_neg (not_not_intro hc3)]
          by_cases hc4 : sub + ins + del > 1
          · rw [if_pos hc4]
            exact iff_of_true rfl (Or.inr (Or.inr (Or.inr hc4)))
          · rw [if_neg hc4]
            have hno : ¬ (¬ (0 ≤ sub ∧ sub ≤ 1) ∨ ¬ (0 ≤ ins ∧ ins ≤ 1) ∨
                ¬ (0 ≤ del ∧ del ≤ 1) ∨ 1 < sub + ins + del) := by
              rintro (h | h | h | h)
              · exact h hc1
              · exact h hc2
              · exact h hc3
              · exact hc4 h
            by_cases hc5 : (inF : Prop)
            · rw [if_neg (not_not_intro hc5)]
              by_cases hc6 : (outD : Prop)
              · rw [if_pos hc6]
                exact iff_of_false (by simp [isConfigError]) hno
              · rw [if_neg hc6]
                exact iff_of_false (by simp [isConfigError]) hno
            · rw [if_pos hc5]
              exact iff_of_false (by simp [isConfigError]) hno
        · rw [if_pos hc3]
          exact iff_of_true rfl (Or.inr (Or.inr (Or.inl hc3)))
      · rw [if_pos hc2]
        exact iff_of_true rfl (Or.inr (Or.inl hc2))
    · rw [if_pos hc1]
      exact iff_of_true rfl (Or.inl hc1)
  · norm_num [validate_args, isConfigError]
  · norm_num [validate_args, isConfigError]
  · intro preserve text g e he
    unfold main_run
    rw [he]

/-- Witness for C4: the out-of-range substitution frequency 1.2 makes the
program exit with status 1 and an empty file-operation trace. -/
theorem validate_args_config_spec_witness :
    main_run 1.2 0 0 false true false [] (fun _ => ⟨0, 0⟩) = (1, []) :=
  (validate_args_config_spec 1.2 0 0 true false).2.2.2 false []
    (fun _ => ⟨0, 0⟩) ValidationError.subFreqRange
    (by norm_num [validate_args])

/-- C5 counterexample: frequencies (0, 0, 1) sum to exactly 1, yet with
preserve-punctuation enabled the punctuation input "." is emitted
unchanged — it is not substituted (dot is not alphanumeric), not
inserted-before (the output has length 1), and not deleted (the output is
nonempty), contradicting "every character of the input is modified". -/
theorem fuzz_text_sum_one_counterexample :
    ((0 : ℚ) + 0 + 1 = 1) ∧
    fuzz_text ['.'] 0 0 1 true (fun _ => ⟨0, 0⟩) = ['.'] ∧
    ('.' ∉ alphanum) ∧ (['.'] ≠ ([] : List Char)) :=
  ⟨by norm_num, by decide, by decide, by decide⟩

/-- C5 amended: when the frequencies sum to exactly 1, the pass-through
branch is unreachable for every character that reaches the random draw —
every non-punctuation-exempt character is substituted, inserted-before,
or deleted. -/
theorem fuzzChar_sum_one_no_passthrough (sub ins del : ℚ) (c : Char)
    (ρ : Rand) (hsum : sub + ins + del = 1) (hr : ρ.r < 1) :
    ¬ (sub + ins + del ≤ ρ.r) ∧
    (fuzzChar sub ins del c ρ = [choice alphanum ρ.ix] ∨
     fuzzChar sub ins del c ρ = [choice alphanum ρ.ix, c] ∨
     fuzzChar sub ins del c ρ = []) := by
  have h : ρ.r < sub + ins + del := by rw [hsum]; exact hr
  refine ⟨not_le.mpr h, ?_⟩
  unfold fuzzChar
  by_cases h1 : ρ.r < sub
  · rw [if_pos h1]
    exact Or.inl rfl
  · rw [if_neg h1]
    by_cases h2 : ρ.r < sub + ins
    · rw [if_pos h2]
      exact Or.inr (Or.inl rfl)
    · rw [if_neg h2, if_pos h]
      exact Or.inr (Or.inr rfl)

/-- Witness for C5's amended statement at frequencies (1, 0, 0). -/
theorem fuzzChar_sum_one_no_passthrough_witness :
    ¬ ((1 : ℚ) + 0 + 0 ≤ (0 : ℚ)) ∧
    (fuzzChar 1 0 0 'a' ⟨0, 0⟩ = [choice alphanum 0] ∨
     fuzzChar 1 0 0 'a' ⟨0, 0⟩ = [choice alphanum 0, 'a'] ∨
     fuzzChar 1 0 0 'a' ⟨0, 0⟩ = []) :=
  fuzzChar_sum_one_no_passthrough 1 0 0 'a' ⟨0, 0⟩ (by norm_num)
    (by norm_num)

/-- C9: each source character contributes exactly 0, 1 or 2 characters to
the output, so the output is at most twice as long as the input. -/
theorem fuzz_text_length_le (text : List Char) (sub ins del : ℚ)
    (preserve : Bool) (g : Nat → Rand) :
    (∀ (c : Char) (ρ : Rand),
      (fuzzChar sub ins del c ρ).length = 0 ∨
      (fuzzChar sub ins del c ρ).length = 1 ∨
      (fuzzChar sub ins del c ρ).length = 2) ∧
    (fuzz_text text sub ins del preserve g).length ≤ 2 * text.length := by
  have hlen : ∀ (c : Char) (ρ : Rand),
      (fuzzChar sub ins del c ρ).length ≤ 2 := by
    intro c ρ
    rcases fuzzChar_cases sub ins del c ρ with h | h | h | h <;>
      rw [h] <;> simp
  constructor
  · intro c ρ
    rcases fuzzChar_cases sub ins del c ρ with h | h | h | h <;>
      rw [h] <;> simp
  · have aux : ∀ (cs : List Char) (k : Nat),
        (fuzzAux sub ins del preserve g cs k).length ≤ 2 * cs.length := by
      intro cs
      induction cs with
      | nil => intro k; simp [fuzzAux]
      | cons c cs ih =>
        intro k
        by_cases hp : (preserve : Prop) ∧ c ∈ punctuation
        · have h2 := ih k
          simp only [fuzzAux, if_pos hp, List.length_cons]
          omega
        · have h1 := hlen c (g k)
          have h2 := ih (k + 1)
          simp only [fuzzAux, if_neg hp, List.length_append,
            List.length_cons]
          omega
    exact aux text 0

/-- C10: every output character either occurs in the input or is ASCII
alphanumeric; the fuzzer never introduces a non-alphanumeric character
that was not already present. -/
theorem fuzz_text_chars_source (text : List Char) (sub ins del : ℚ)
    (preserve : Bool) (g : Nat → Rand) :
    ∀ x ∈ fuzz_text text sub ins del preserve g,
      x ∈ text ∨ x ∈ alphanum := by
  have contrib : ∀ (c : Char) (ρ : Rand) (x : Char),
      x ∈ fuzzChar sub ins del c ρ → x = c ∨ x ∈ alphanum := by
    intro c ρ x hx
    rcases fuzzChar_cases sub ins del c ρ with h | h | h | h <;> rw [h] at hx
    · exact Or.inr ((List.mem_singleton.mp hx) ▸ choice_alphanum_mem ρ.ix)
    · rcases List.mem_cons.mp hx with h1 | h1
      · exact Or.inr (h1 ▸ choice_alphanum_mem ρ.ix)
      · exact Or.inl (List.mem_singleton.mp h1)
    · exact absurd hx (List.not_mem_nil x)
    · exact Or.inl (List.mem_singleton.mp hx)
  have aux : ∀ (cs : List Char) (k : Nat) (x : Char),
      x ∈ fuzzAux sub ins del preserve g cs k → x ∈ cs ∨ x ∈ alphanum := by
    intro cs
    induction cs with
    | nil => intro k x hx; exact absurd hx (List.not_mem_nil x)
    | cons c cs ih =>
      intro k x hx
      by_cases hp : (preserve : Prop) ∧ c ∈ punctuation
      · rw [show fuzzAux sub ins del preserve g (c :: cs) k =
            c :: fuzzAux sub ins del preserve g cs k by
          simp [fuzzAux, hp]] at hx
        rcases List.mem_cons.mp hx with h1 | h1
        · exact Or.inl (h1 ▸ List.mem_cons_self c cs)
        · rcases ih k x h1 with h2 | h2
          · exact Or.inl (List.mem_cons_of_mem c h2)
          · exact Or.inr h2
      · rw [show fuzzAux sub ins del preserve g (c :: cs) k =
            fuzzChar sub ins del c (g k) ++
              fuzzAux sub ins del preserve g cs (k + 1) by
          simp [fuzzAux, hp]] at hx
        rcases List.mem_append.mp hx with h1 | h1
        · rcases contrib c (g k) x h1 with h2 | h2
          · exact Or.inl (h2 ▸ List.mem_cons_self c cs)
          · exact Or.inr h2
        · rcases ih (k + 1) x h1 with h2 | h2
          · exact Or.inl (List.mem_cons_of_mem c h2)
          · exact Or.inr h2
  intro x hx
  exact aux text 0 x hx

/-- Witness for C10 on the single-character input "a" with all
frequencies zero. -/
theorem fuzz_text_chars_source_witness :
    ('a' ∈ fuzz_text ['a'] 0 0 0 false (fun _ => ⟨0, 0⟩)) ∧
    ('a' ∈ (['a'] : List Char) ∨ 'a' ∈ alphanum) := by
  have heq : fuzz_text ['a'] 0 0 0 false (fun _ => ⟨0, 0⟩) = ['a'] := by
    norm_num [fuzz_text, fuzzAux, fuzzChar]
  have hm : 'a' ∈ fuzz_text ['a'] 0 0 0 false (fun _ => ⟨0, 0⟩) := by
    rw [heq]
    exact List.mem_singleton.mpr rfl
  exact ⟨hm,
    fuzz_text_chars_source ['a'] 0 0 0 false (fun _ => ⟨0, 0⟩) 'a' hm⟩

end DmTextFuzz
